import Mathlib

/-!
Verification of the FloraTraiter rule-based trait extraction engine.

This file gives a shallow embedding of the parts of the repository needed to
settle the frozen claims:

* `flora/pylib/rules/post_process.py` - subpart-to-fruit/seed proximity relinking
* `flora/pylib/rules/dispersal_traits.py` - negation-aware dispersal trait resolver
* `flora/pylib/rules/dispersal_structure.py` - dispersal structure resolver
* `flora/pylib/rules/fruit_type.py` - fruit type resolver
* `flora/pylib/writers/dispersal_format.py` - aggregation and ternary encoding
* `flora/pylib/writers/json_writer.py` - writer-side ordering of build vs. mutate

Python strings are modelled as Lean `String` (a wrapper around `List Char`),
Python dicts as association lists with distinct keys (insertion order
preserved, as in CPython), Python sets as lists with membership-checked
insertion (only membership in these sets is ever observed by the code under
verification), and heterogeneous dict values as the `PVal` inductive.
Lookup tables that the source loads from CSV files (term tables, the
keyword-to-trait mapping, the fruit-type term list) live outside the program
text and are therefore universally quantified parameters of the embedded
functions.
-/

set_option autoImplicit false

/-! ### Character-list string helpers (Python string operations) -/

/-- Python `str.lower()` (ASCII is all the corpus uses). -/
def lowerData (l : List Char) : List Char := l.map Char.toLower

/-- `str.lower()` on `String`. -/
def toLowerS (s : String) : String := ⟨lowerData s.data⟩

/-- Python `str.strip()` : drop whitespace from both ends. -/
def trimData (l : List Char) : List Char :=
  ((l.dropWhile Char.isWhitespace).reverse.dropWhile Char.isWhitespace).reverse

/-- Python `str.rstrip(c)` for a single character. -/
def rstripData (c : Char) (l : List Char) : List Char :=
  (l.reverse.dropWhile (· == c)).reverse

/-- Python `str.lstrip(c)` for a single character. -/
def lstripData (c : Char) (l : List Char) : List Char :=
  l.dropWhile (· == c)

/-- Python `str.startswith(pat)`. -/
def startsWithStr (pat s : String) : Bool :=
  pat.data.isPrefixOf s.data

/-- Python `str.split(c)` for a one-character separator.
`splitCh c l` never returns `[]`; splitting the empty string gives `[[]]`. -/
def splitCh (c : Char) : List Char → List (List Char)
  | [] => [[]]
  | a :: rest =>
    match splitCh c rest with
    | [] => if a == c then [[], []] else [[a]]
    | g :: gs => if a == c then [] :: g :: gs else (a :: g) :: gs

/-- Python `sep.join(groups)` for a one-character separator. -/
def joinCh (c : Char) (gs : List (List Char)) : List Char :=
  List.intercalate [c] gs

/-- Split `s` at the LAST occurrence of the pattern `pat` (Python `str.rfind`
followed by slicing): returns `(text before, text after)` of the last
occurrence, or `none` when `pat` does not occur in `s`. -/
def lastInfixSplit (pat : List Char) : List Char → Option (List Char × List Char)
  | [] => if pat = [] then some ([], []) else none
  | c :: rest =>
    match lastInfixSplit pat rest with
    | some (b, a) => some (c :: b, a)
    | none =>
      if pat.isPrefixOf (c :: rest) then some ([], (c :: rest).drop pat.length)
      else none

/-- Lexicographic comparison of char lists by code point (Python `<=` on `str`). -/
def lexLe : List Char → List Char → Bool
  | [], _ => true
  | _ :: _, [] => false
  | a :: as, b :: bs =>
    if a.val < b.val then true
    else if b.val < a.val then false
    else lexLe as bs

/-- Insert a string into a lexicographically sorted list. -/
def insertSorted (x : String) : List String → List String
  | [] => [x]
  | y :: ys => if lexLe x.data y.data then x :: y :: ys else y :: insertSorted x ys

/-- Python `sorted(...)` on strings (insertion sort; code-point order). -/
def sortStrings (l : List String) : List String :=
  l.foldl (fun acc x => insertSorted x acc) []

/-- Python `set.add`: append if not already present.  Only membership in the
resulting list is observed. -/
def setInsert (s : List String) (x : String) : List String :=
  if x ∈ s then s else s ++ [x]

/-- Python `a or b` for optional strings: a present but empty (falsy) string
also falls through to `b`. -/
def pyOr (a b : Option String) : Option String :=
  match a with
  | none => b
  | some s => if s = "" then b else some s

/-- Python `a or b` where `b` is a plain string. -/
def pyOrS (a : Option String) (b : String) : String :=
  match a with
  | none => b
  | some s => if s = "" then b else s

/-! ### Dict values -/

/-- A value stored in a Python property bag: `None`, a string, or a number
(the aggregation step writes the ints `0`/`1` back into the bag). -/
inductive PVal where
  | null : PVal
  | str : String → PVal
  | nat : Nat → PVal
deriving DecidableEq, Repr

/-- Python `str(value)` for bag values (only applied to non-`None` values by
the code under verification). -/
def pyStr : PVal → String
  | PVal.null => "None"
  | PVal.str s => s
  | PVal.nat n => Nat.repr n

/-- A Python dict modelled as an insertion-ordered association list with
distinct keys. -/
abbrev Bag := List (String × PVal)

/-- Python dict assignment `d[k] = v`: overwrite in place when the key exists
(keeping its position), otherwise append. -/
def pyDictSet (d : Bag) (k : String) (v : PVal) : Bag :=
  if d.any (fun kv => kv.1 == k) then
    d.map (fun kv => if kv.1 == k then (k, v) else kv)
  else d ++ [(k, v)]

/-! ### Fixed dispersal trait vocabulary

Modelled from the spec: `DISPERSAL_TRAIT_NAMES` lives in
`flora/pylib/const.py`, which is not part of the provided sources; the spec
describes it as "a closed, ordered set of trait names (dispersal mechanisms:
e.g. wing, hook, pappus-like structure, fleshy reward, buoyant structure)".
None of the claims depends on the exact membership of this vocabulary, only
on it being a fixed list of plain trait names. -/
def DISPERSAL_TRAIT_NAMES : List String :=
  ["wing", "hook", "pappus", "fleshy_reward", "buoyant_structure"]

/-! ### `flora/pylib/writers/dispersal_format.py` -/

/-- `_part_from_dispersal_key` (dispersal_format.py lines 79-89): extract the
part in front of the last occurrence of `"dispersaltraits"` in the lowercased
key, with trailing underscores stripped; `none` when the key is not a
dispersal key. -/
def part_from_dispersal_key (key : String) : Option String :=
  if key = "" then none
  else
    match lastInfixSplit "dispersaltraits".data (lowerData key.data) with
    | none => none
    | some (before, _) =>
      let part := rstripData '_' before
      if part = [] then none else some ⟨part⟩

/-- `_sanitized_keyword_from_dispersal_key` (lines 92-101): the suffix after
the last `"dispersaltraits"` in the lowercased key, with leading underscores
stripped; `none` when absent or empty. -/
def sanitized_keyword_from_dispersal_key (key : String) : Option String :=
  if key = "" then none
  else
    match lastInfixSplit "dispersaltraits".data (lowerData key.data) with
    | none => none
    | some (_, post) =>
      let suffix := lstripData '_' post
      if suffix = [] then none else some ⟨suffix⟩

/-- `_allowed_dispersal_parts` (lines 66-76): `{"fruit", "seed"}` plus every
canonical fruit-type name.  The fruit-type names are read from the
`fruit_type_terms.csv` replace column, a data file outside the sources, so
they are a parameter here. -/
def allowed_dispersal_parts (fruitTypeNames : List String) : List String :=
  "fruit" :: "seed" :: fruitTypeNames

/-- Result of `_collect_dispersal_by_allowed_parts`. -/
structure CollectOut where
  present : List String
  absent : List String
  keysToRemove : List String
  keywordsFound : List String
deriving DecidableEq, Repr

/-- First loop of `_collect_dispersal_by_allowed_parts` (lines 111-121):
sanitized keyword suffixes of dispersal keys whose part is allowed. -/
def allowedSanitized (allowed : List String) (d : Bag) : List String :=
  d.foldl
    (fun acc kv =>
      match part_from_dispersal_key kv.1 with
      | none => acc
      | some part =>
        if part ∈ allowed then
          match sanitized_keyword_from_dispersal_key kv.1 with
          | some s => setInsert acc s
          | none => acc
        else acc)
    []

/-- Inner loop body of the trait-token classification (lines 143-150): strip
each pipe-separated token; an exact vocabulary member is present, a
vocabulary member plus `"_absent"` (suffix dropped, `trait[:-7]`) is absent. -/
def addTraitToken (pa : List String × List String) (traitRaw : List Char) :
    List String × List String :=
  let trait : String := ⟨trimData traitRaw⟩
  if trait ∈ DISPERSAL_TRAIT_NAMES then (setInsert pa.1 trait, pa.2)
  else if "_absent".data.isSuffixOf trait.data then
    let base : String := ⟨trait.data.take (trait.data.length - 7)⟩
    if base ∈ DISPERSAL_TRAIT_NAMES then (pa.1, setInsert pa.2 base) else pa
  else pa

/-- One iteration of the second loop of `_collect_dispersal_by_allowed_parts`
(lines 122-150), processing a single `(key, value)` item. -/
def collectStep (allowed san : List String) (acc : CollectOut)
    (kv : String × PVal) : CollectOut :=
  let (key, value) := kv
  if startsWithStr "dispersal_keyword_" key then
    let acc := { acc with keysToRemove := acc.keysToRemove ++ [key] }
    let sanitized : String := ⟨key.data.drop "dispersal_keyword_".data.length⟩
    if sanitized ∈ san ∧ value ≠ PVal.null ∧ trimData (pyStr value).data ≠ [] then
      { acc with keywordsFound := acc.keywordsFound ++ [⟨trimData (pyStr value).data⟩] }
    else acc
  else if startsWithStr "fruit_type_keyword_" key then
    let acc := { acc with keysToRemove := acc.keysToRemove ++ [key] }
    if value ≠ PVal.null ∧ trimData (pyStr value).data ≠ [] then
      { acc with keywordsFound := acc.keywordsFound ++ [⟨trimData (pyStr value).data⟩] }
    else acc
  else
    match part_from_dispersal_key key with
    | none => acc
    | some part =>
      let acc := { acc with keysToRemove := acc.keysToRemove ++ [key] }
      if part ∈ allowed then
        match value with
        | PVal.null => acc
        | v =>
          let groups := splitCh '|' (trimData (pyStr v).data)
          let pa := groups.foldl addTraitToken (acc.present, acc.absent)
          { acc with present := pa.1, absent := pa.2 }
      else acc

/-- `_collect_dispersal_by_allowed_parts` (lines 104-151). -/
def collect_dispersal_by_allowed_parts (allowed : List String) (d : Bag) :
    CollectOut :=
  d.foldl (collectStep allowed (allowedSanitized allowed d))
    ⟨[], [], [], []⟩

/-- A value appearing in the emitted dispersal block: a 0/1 flag or the
fruit-type string. -/
inductive BVal where
  | num : Nat → BVal
  | str : String → BVal
deriving DecidableEq, Repr

/-- The separate structured output block. -/
structure Block where
  keywordsFound : List String
  traits : List (String × BVal)
deriving DecidableEq, Repr

/-- The `fruitType` scan of `build_dispersal_block` (lines 168-174): the first
bag entry with key `"fruitType"` and non-null value; a string value is used
as-is and a non-string value is `str(v).strip()`-ed. -/
def build_fruit_type_value (dyn : Bag) : Option String :=
  match dyn.find? (fun kv => decide (kv.1 = "fruitType" ∧ kv.2 ≠ PVal.null)) with
  | some (_, PVal.str s) => some s
  | some (_, v) => some ⟨trimData (pyStr v).data⟩
  | none => none

/-- The present set used by `build_dispersal_block` (lines 166-178): the
collected present traits plus the traits implied by the core fruit type via
the mapping table (`_core_fruit_type_to_dispersal_traits`, a CSV-loaded table
passed as the `implied` parameter). -/
def build_present (allowed : List String) (implied : List (String × List String))
    (dyn : Bag) : List String :=
  let c := collect_dispersal_by_allowed_parts allowed dyn
  match build_fruit_type_value dyn with
  | none => c.present
  | some v =>
    if toLowerS v = "" then c.present
    else ((implied.lookup (toLowerS v)).getD []).foldl setInsert c.present

/-- The `traits` dict loop shared by the block builder and the mutating
formatter (lines 179-184 and 213-217): one entry per vocabulary name, `1`
when present, `0` when absent, no entry otherwise.  The vocabulary names are
distinct, so dict insertion builds exactly this list. -/
def mkTraits (names present absent : List String) : List (String × BVal) :=
  match names with
  | [] => []
  | n :: rest =>
    (if n ∈ present then [(n, BVal.num 1)]
     else if n ∈ absent then [(n, BVal.num 0)]
     else []) ++ mkTraits rest present absent

/-- `build_dispersal_block` (lines 154-190). -/
def build_dispersal_block (allowed : List String)
    (implied : List (String × List String)) (dyn : Bag) : Block :=
  let c := collect_dispersal_by_allowed_parts allowed dyn
  let ftv := build_fruit_type_value dyn
  let traits := mkTraits DISPERSAL_TRAIT_NAMES (build_present allowed implied dyn) c.absent
  { keywordsFound := sortStrings (c.keywordsFound.foldl setInsert []),
    traits :=
      traits ++ (match ftv with
                 | some v => [("fruitType", BVal.str v)]
                 | none => []) }

/-- The `fruitType` scan of `format_dispersal_in_dynamic_properties`
(lines 202-206): here the string case is also stripped before lowering. -/
def format_fruit_type_lower (dyn : Bag) : Option String :=
  match dyn.find? (fun kv => decide (kv.1 = "fruitType" ∧ kv.2 ≠ PVal.null)) with
  | some (_, v) => some (toLowerS ⟨trimData (pyStr v).data⟩)
  | none => none

/-- The present set used by the mutating formatter (lines 201-210). -/
def format_present (allowed : List String) (implied : List (String × List String))
    (dyn : Bag) : List String :=
  let c := collect_dispersal_by_allowed_parts allowed dyn
  match format_fruit_type_lower dyn with
  | none => c.present
  | some lo =>
    if lo = "" then c.present
    else ((implied.lookup lo).getD []).foldl setInsert c.present

/-- `format_dispersal_in_dynamic_properties` (lines 193-218): remove every
collected source key from the bag, then write `1`/`0` entries for the
present/absent vocabulary names. -/
def format_dispersal_in_dynamic_properties (allowed : List String)
    (implied : List (String × List String)) (dyn : Bag) : Bag :=
  let c := collect_dispersal_by_allowed_parts allowed dyn
  let p := format_present allowed implied dyn
  let d1 := dyn.filter (fun kv => decide (kv.1 ∉ c.keysToRemove))
  DISPERSAL_TRAIT_NAMES.foldl
    (fun d name =>
      if name ∈ p then pyDictSet d name (PVal.nat 1)
      else if name ∈ c.absent then pyDictSet d name (PVal.nat 0)
      else d)
    d1

/-- `write_json` (json_writer.py lines 22-30), restricted to the dispersal
processing of the dynamic-properties bag: the emitted block is built from the
bag first, and only afterwards is the bag mutated in place. -/
def write_json_dispersal (allowed : List String)
    (implied : List (String × List String)) (dyn : Bag) : Block × Bag :=
  (build_dispersal_block allowed implied dyn,
   format_dispersal_in_dynamic_properties allowed implied dyn)

/-! ### `flora/pylib/rules/post_process.py` -/

/-- A collected fruit/seed part anchor: the entity token span and the
lowercased part value (`"fruit"`, `"seed"`, `"fruits"` or `"seeds"`)
recorded by the first pass (post_process.py lines 95-117).  `stop` is the
entity's `end` token index. -/
structure Anchor where
  start : Nat
  stop : Nat
  part : String
deriving DecidableEq, Repr

/-- The static `fruit_type_to_part` table (post_process.py lines 22-93). -/
def fruit_type_to_part : List (String × String) :=
  [("achene", "fruit"), ("cypsela", "fruit"), ("anthocarp", "fruit"),
   ("berry", "fruit"), ("amphisarca", "fruit"), ("arillocarpium", "fruit"),
   ("balausta", "fruit"), ("cactidium", "fruit"), ("epispermatium", "fruit"),
   ("hesperidium", "fruit"), ("pepo", "fruit"), ("syncarp", "fruit"),
   ("capsule", "fruit"), ("circumscissile", "fruit"), ("loculicidal", "fruit"),
   ("poricidal", "fruit"), ("pyxis", "fruit"), ("septicidal", "fruit"),
   ("silicle", "fruit"), ("silique", "fruit"), ("caryopsis", "fruit"),
   ("grain", "fruit"), ("drupe", "fruit"), ("drupelet", "fruit"),
   ("drupetum", "fruit"), ("pseudodrupe", "fruit"), ("stone fruit", "fruit"),
   ("follicle", "fruit"), ("cone", "fruit"), ("megastrobilus", "fruit"),
   ("microstrobilus", "fruit"), ("strobili", "fruit"), ("strobilus", "fruit"),
   ("berry-like cone", "fruit"), ("cone berry", "fruit"), ("galbulus", "fruit"),
   ("legume", "fruit"), ("loment", "fruit"), ("pod", "fruit"),
   ("nut", "fruit"), ("nutlet", "fruit"), ("pome", "fruit"),
   ("nuculanium", "fruit"), ("samara", "fruit"), ("samaroid", "fruit"),
   ("schizocarp", "fruit"), ("camara", "fruit"), ("carcerulus", "fruit"),
   ("coccus", "fruit"), ("cremocarp", "fruit"), ("mericarp", "fruit"),
   ("regma", "fruit"), ("sorosis", "fruit"), ("syconium", "fruit"),
   ("utricle", "fruit")]

/-- The token distance of post_process.py lines 141-144:
`min(abs(anchor.start - subpart.end), abs(subpart.start - anchor.end))`
(Python ints; both differences taken as absolute values). -/
def entDist (a : Anchor) (s e : Nat) : Nat :=
  min (((a.start : Int) - (e : Int)).natAbs) (((s : Int) - (a.stop : Int)).natAbs)

/-- The anchor scan loop of post_process.py lines 136-148: running state is
`none` (`min_dist = inf`) or `some (min_dist, underlying_part)`; an anchor
replaces the state when its distance is strictly smaller than the best so far
and strictly below the 50-token threshold. -/
def scanAnchors (s e : Nat) : List Anchor → Option (Nat × String) → Option (Nat × String)
  | [], acc => acc
  | a :: rest, acc =>
    scanAnchors s e rest
      (match acc with
       | none => if entDist a s e < 50 then some (entDist a s e, a.part) else none
       | some (m, p) =>
         if entDist a s e < m ∧ entDist a s e < 50 then some (entDist a s e, a.part)
         else some (m, p))

/-- The string-part branch of the subpart relinking pass (post_process.py
lines 127-152): when the lowercased part names a known fruit type, the part
becomes the part value of the closest eligible anchor, falling back to the
static table value; otherwise the part is left unchanged. -/
def relink_subpart_part (anchors : List Anchor) (s e : Nat) (part : String) : String :=
  match fruit_type_to_part.lookup (toLowerS part) with
  | none => part
  | some u =>
    match scanAnchors s e anchors none with
    | some (_, p) => p
    | none => u

/-! ### Token and record model for the rule resolvers -/

/-- A document token as the resolvers see it: `lower` is spaCy's `t.lower_`
and `term` is the vocabulary term-class tag `t._.term` (empty when the token
carries no term class). -/
structure Token where
  lower : String
  term : String
deriving DecidableEq, Repr

/-- The trait record built by `DispersalStructure.from_ent`. -/
structure DispersalStructureRec where
  dispersal_structure : Option String
deriving DecidableEq, Repr

/-- The trait record built by `DispersalTraits.from_ent`. -/
structure DispersalTraitsRec where
  dispersal_traits : Option String
  matched_keyword : Option String
deriving DecidableEq, Repr

/-- The trait record built by `FruitType.from_ent` (scalar-part case). -/
structure FruitTypeRec where
  part : String
  matched_keyword : String
deriving DecidableEq, Repr

/-- Pipe-join a list of trait names (`"|".join(...)`). -/
def pipeJoin (l : List String) : String :=
  ⟨joinCh '|' (l.map String.data)⟩

/-! ### `flora/pylib/rules/dispersal_traits.py` -/

/-- Lines 148-151: the span's tokens carrying the `dispersal_term` or
`dispersal_absence` term class, in order. -/
def dispersal_tokens (ts : List Token) : List Token :=
  ts.filter (fun t => t.term == "dispersal_term" || t.term == "dispersal_absence")

/-- Line 155: the composite lookup key - space-joined lowercase forms of the
dispersal tokens, stripped. -/
def dispersal_key (ts : List Token) : String :=
  ⟨trimData (joinCh ' ' ((dispersal_tokens ts).map (fun t => t.lower.data)))⟩

/-- Line 156: `replace.get(key, key)`. -/
def dispersal_norm (replace : List (String × String)) (ts : List Token) : String :=
  ((replace.lookup (dispersal_key ts)).getD (dispersal_key ts))

/-- Lines 152-164: resolve the key to `(dispersal_type, matched_keyword)`.
The mapping CSV is preferred (pipe-joined trait list, keyword recorded);
otherwise the term-table `type` column on the raw then normalized key
(Python `or`, so an empty type string also falls through). -/
def dispersal_resolve (replace type2 : List (String × String))
    (mapping : List (String × List String)) (ts : List Token) :
    Option String × Option String :=
  if (dispersal_tokens ts).isEmpty then (none, none)
  else
    let key := dispersal_key ts
    let norm := dispersal_norm replace ts
    match mapping.lookup norm with
    | some traitsList => (some (pipeJoin traitsList), some key)
    | none => (pyOr (type2.lookup key) (type2.lookup norm), none)

/-- Lines 165-174: when negated and the resolved value does not already end
in `"_absent"`, append `"_absent"` to every pipe-separated element (or to
the single value when no pipe occurs). -/
def apply_negation (negated : Bool) (dt : Option String) : Option String :=
  match dt with
  | none => none
  | some v =>
    if negated ∧ ¬("_absent".data.isSuffixOf v.data) then
      if '|' ∈ v.data then
        some ⟨joinCh '|' ((splitCh '|' v.data).map (fun t => t ++ "_absent".data))⟩
      else some (v ++ "_absent")
    else some v

/-- `DispersalTraits.dispersal_traits_match` (lines 141-179), the record it
constructs via `from_ent`. -/
def dispersal_traits_record (replace type2 : List (String × String))
    (mapping : List (String × List String)) (ts : List Token) :
    DispersalTraitsRec :=
  let negated := ts.any (fun t => t.term == "dispersal_negator")
  let r := dispersal_resolve replace type2 mapping ts
  { dispersal_traits := apply_negation negated r.1, matched_keyword := r.2 }

/-- The value `dispersal_traits_match` hands back to the matcher pipeline:
the function ends in `return cls.from_ent(...)` on every path, so a record
is always emitted (`some`), never dropped. -/
def dispersal_traits_match (replace type2 : List (String × String))
    (mapping : List (String × List String)) (ts : List Token) :
    Option DispersalTraitsRec :=
  some (dispersal_traits_record replace type2 mapping ts)

/-! ### `flora/pylib/rules/dispersal_structure.py` -/

/-- The scan loop of `dispersal_structure_match` (lines 76-86): the first
`dispersal_term` token whose `type` lookup (raw key, then replace-normalized
key) succeeds stops the scan; tokens that resolve to nothing are skipped. -/
def dispersal_structure_scan (replace type2 : List (String × String)) :
    List Token → Option String
  | [] => none
  | t :: rest =>
    if t.term == "dispersal_term" then
      match type2.lookup t.lower with
      | some ty => some ty
      | none =>
        match type2.lookup ((replace.lookup t.lower).getD t.lower) with
        | some ty => some ty
        | none => dispersal_structure_scan replace type2 rest
    else dispersal_structure_scan replace type2 rest

/-- `DispersalStructure.dispersal_structure_match` (lines 73-87): always
returns `cls.from_ent(ent, dispersal_structure=dispersal_type)`, so a record
is always emitted, with a null value when no token resolved. -/
def dispersal_structure_match (replace type2 : List (String × String))
    (ts : List Token) : Option DispersalStructureRec :=
  some { dispersal_structure := dispersal_structure_scan replace type2 ts }

/-! ### `flora/pylib/rules/fruit_type.py` -/

/-- `FruitType.fruit_type_match` (lines 108-124): the first `fruit_type_term`
token fixes the keyword; the canonical part is the mapping-table value
(Python `or`, empty falls through) else the replace-table value with the raw
keyword as default.  With no such token the match returns `None` and is
dropped; once a keyword is found `canonical` is never `None` because the
replace lookup defaults to the keyword, so the line-119 guard only fires in
the no-token case. -/
def fruit_type_match (mapping replace : List (String × String))
    (ts : List Token) : Option FruitTypeRec :=
  match ts.find? (fun t => t.term == "fruit_type_term") with
  | none => none
  | some tok =>
    some { part := pyOrS (mapping.lookup tok.lower) ((replace.lookup tok.lower).getD tok.lower),
           matched_keyword := tok.lower }

/-! ### Characterisation of `_collect_dispersal_by_allowed_parts` -/

/-- The present-trait name a pipe-group contributes, if any: the stripped
group itself when it is a vocabulary member. -/
def groupPresentName (g : List Char) : Option String :=
  let t : String := ⟨trimData g⟩
  if t ∈ DISPERSAL_TRAIT_NAMES then some t else none

/-- The absent-trait name a pipe-group contributes, if any: the stripped
group minus the `"_absent"` suffix when that base is a vocabulary member. -/
def groupAbsentName (g : List Char) : Option String :=
  let t : String := ⟨trimData g⟩
  if t ∈ DISPERSAL_TRAIT_NAMES then none
  else if "_absent".data.isSuffixOf t.data then
    let b : String := ⟨t.data.take (t.data.length - 7)⟩
    if b ∈ DISPERSAL_TRAIT_NAMES then some b else none
  else none

/-- A bag entry puts `name` into the collected present set iff it is a
dispersal-traits key (not a keyword-provenance key), its part is allowed,
its value is non-null, and some pipe-group of the value is exactly `name`. -/
def presContribB (allowed : List String) (kv : String × PVal) (name : String) : Bool :=
  !(startsWithStr "dispersal_keyword_" kv.1) &&
  !(startsWithStr "fruit_type_keyword_" kv.1) &&
  (match part_from_dispersal_key kv.1 with
   | some p => decide (p ∈ allowed)
   | none => false) &&
  (kv.2 != PVal.null) &&
  (splitCh '|' (trimData (pyStr kv.2).data)).any (fun g => groupPresentName g == some name)

/-- Same as `presContribB` for the absent set (`"_absent"`-suffixed groups). -/
def absContribB (allowed : List String) (kv : String × PVal) (name : String) : Bool :=
  !(startsWithStr "dispersal_keyword_" kv.1) &&
  !(startsWithStr "fruit_type_keyword_" kv.1) &&
  (match part_from_dispersal_key kv.1 with
   | some p => decide (p ∈ allowed)
   | none => false) &&
  (kv.2 != PVal.null) &&
  (splitCh '|' (trimData (pyStr kv.2).data)).any (fun g => groupAbsentName g == some name)

/-- A key the aggregation step consumes: a keyword-provenance key or a
dispersal-traits key (whether or not its part is allowed). -/
def consumedKeyB (k : String) : Bool :=
  startsWithStr "dispersal_keyword_" k || startsWithStr "fruit_type_keyword_" k ||
    (part_from_dispersal_key k).isSome


/-- The canonical-part precedence as the spec words it (section 4.2): the
mapping-table value when the keyword is mapped, else the replace-table value,
else the raw lowercase keyword.  Stated separately from the code's
`pyOrS`-based expression so the refinement can be proved. -/
def fruit_type_canonical_spec (mapping replace : List (String × String))
    (keyword : String) : String :=
  match mapping.lookup keyword with
  | some v => v
  | none => (replace.lookup keyword).getD keyword


/-! ### Lemmas about the anchor scan (post_process) -/

/-- With no eligible anchor and an empty running state, the scan stays empty. -/
theorem scanAnchors_none (s e : Nat) (l : List Anchor)
    (h : ∀ a ∈ l, ¬ entDist a s e < 50) :
    scanAnchors s e l none = none := by
  induction l with
  | nil => rfl
  | cons a rest ih =>
    have ha := h a (List.mem_cons_self a rest)
    simp only [scanAnchors, if_neg ha]
    exact ih fun b hb => h b (List.mem_cons_of_mem a hb)

/-- If the scan comes back empty, the initial state was empty and no anchor
in the list was within the threshold. -/
theorem scanAnchors_none_inv (s e : Nat) (l : List Anchor)
    (acc : Option (Nat × String)) (h : scanAnchors s e l acc = none) :
    acc = none ∧ ∀ a ∈ l, ¬ entDist a s e < 50 := by
  induction l generalizing acc with
  | nil => exact ⟨h, by simp⟩
  | cons a rest ih =>
    simp only [scanAnchors] at h
    rcases ih _ h with ⟨hacc, hrest⟩
    match acc with
    | none =>
      by_cases hd : entDist a s e < 50
      · simp [hd] at hacc
      · exact ⟨rfl, by
          intro b hb
          rcases List.mem_cons.mp hb with hb | hb
          · exact hb ▸ hd
          · exact hrest b hb⟩
    | some (m, p) =>
      by_cases hd : entDist a s e < m ∧ entDist a s e < 50 <;> simp [hd] at hacc

/-- If the scan returns `some (m, p)`, the pair is either the untouched
initial state or realised by an anchor in the list at distance `m < 50`. -/
theorem scanAnchors_some (s e : Nat) (l : List Anchor)
    (acc : Option (Nat × String)) (m : Nat) (p : String)
    (h : scanAnchors s e l acc = some (m, p)) :
    acc = some (m, p) ∨ ∃ b ∈ l, entDist b s e = m ∧ b.part = p ∧ m < 50 := by
  induction l generalizing acc with
  | nil => exact Or.inl h
  | cons a rest ih =>
    simp only [scanAnchors] at h
    rcases ih _ h with hacc | ⟨b, hb, hbd, hbp, hm⟩
    · match acc with
      | none =>
        by_cases hd : entDist a s e < 50
        · simp only [if_pos hd, Option.some.injEq, Prod.mk.injEq] at hacc
          exact Or.inr ⟨a, List.mem_cons_self a rest, hacc.1, hacc.2, hacc.1 ▸ hd⟩
        · simp [hd] at hacc
      | some (m0, p0) =>
        by_cases hd : entDist a s e < m0 ∧ entDist a s e < 50
        · simp only [if_pos hd, Option.some.injEq, Prod.mk.injEq] at hacc
          exact Or.inr ⟨a, List.mem_cons_self a rest, hacc.1, hacc.2, hacc.1 ▸ hd.2⟩
        · simp only [if_neg hd, Option.some.injEq] at hacc
          exact Or.inl (hacc ▸ rfl)
    · exact Or.inr ⟨b, List.mem_cons_of_mem a hb, hbd, hbp, hm⟩

/-- The distance returned by the scan is minimal: no larger than the initial
state's distance and no larger than any eligible anchor's distance. -/
theorem scanAnchors_le (s e : Nat) (l : List Anchor)
    (acc : Option (Nat × String)) (m : Nat) (p : String)
    (h : scanAnchors s e l acc = some (m, p)) :
    (∀ m0 p0, acc = some (m0, p0) → m ≤ m0) ∧
      ∀ c ∈ l, entDist c s e < 50 → m ≤ entDist c s e := by
  induction l generalizing acc with
  | nil =>
    refine ⟨fun m0 p0 hacc => ?_, by simp⟩
    simp only [scanAnchors] at h
    rw [hacc] at h
    cases h
    exact le_refl m
  | cons a rest ih =>
    simp only [scanAnchors] at h
    match acc with
    | none =>
      by_cases hd : entDist a s e < 50
      · rcases ih _ h with ⟨h1, h2⟩
        have hma : m ≤ entDist a s e := h1 (entDist a s e) a.part (by simp [hd])
        refine ⟨by simp, fun c hc hce => ?_⟩
        rcases List.mem_cons.mp hc with hc | hc
        · exact hc ▸ hma
        · exact h2 c hc hce
      · rcases ih _ h with ⟨_, h2⟩
        refine ⟨by simp, fun c hc hce => ?_⟩
        rcases List.mem_cons.mp hc with hc | hc
        · exact absurd (hc ▸ hce) hd
        · exact h2 c hc hce
    | some (m0, p0) =>
      by_cases hd : entDist a s e < m0 ∧ entDist a s e < 50
      · rcases ih _ h with ⟨h1, h2⟩
        have hma : m ≤ entDist a s e := h1 (entDist a s e) a.part (by simp [hd])
        refine ⟨fun m1 p1 hacc => ?_, fun c hc hce => ?_⟩
        · cases hacc
          exact le_trans hma (le_of_lt hd.1)
        · rcases List.mem_cons.mp hc with hc | hc
          · exact hc ▸ hma
          · exact h2 c hc hce
      · rcases ih _ h with ⟨h1, h2⟩
        have hm0 : m ≤ m0 := h1 m0 p0 (by simp [hd])
        refine ⟨fun m1 p1 hacc => ?_, fun c hc hce => ?_⟩
        · cases hacc
          exact hm0
        · rcases List.mem_cons.mp hc with hc | hc
          · subst hc
            rcases not_and_or.mp hd with hd1 | hd2
            · exact le_trans hm0 (le_of_not_lt hd1)
            · exact absurd hce hd2
          · exact h2 c hc hce

/-- C1: for a subpart whose part value names a known fruit type, the
relinking pass rewrites the part to the part value of a nearest anchor at
token distance strictly below 50 (distance `min(|anchor.start - subpart.end|,
|subpart.start - anchor.end|)`), and falls back to the static
`fruit_type_to_part` table value when no anchor is within the threshold. -/
theorem relink_uses_nearest_anchor_within_threshold (anchors : List Anchor)
    (s e : Nat) (part u : String)
    (hu : fruit_type_to_part.lookup (toLowerS part) = some u) :
    ((∀ a ∈ anchors, ¬ entDist a s e < 50) →
      relink_subpart_part anchors s e part = u)
    ∧ (∀ a ∈ anchors, entDist a s e < 50 →
        ∃ b ∈ anchors, entDist b s e < 50 ∧
          relink_subpart_part anchors s e part = b.part ∧
          ∀ c ∈ anchors, entDist c s e < 50 → entDist b s e ≤ entDist c s e) := by
  constructor
  · intro h
    unfold relink_subpart_part
    rw [hu, scanAnchors_none s e anchors h]
  · intro a ha hd
    match hscan : scanAnchors s e anchors none with
    | none =>
      exact absurd (((scanAnchors_none_inv s e anchors none hscan).2) a ha) (not_not_intro hd)
    | some (m, p) =>
      rcases scanAnchors_some s e anchors none m p hscan with hacc | ⟨b, hb, hbd, hbp, hm⟩
      · exact absurd hacc (by simp)
      · refine ⟨b, hb, hbd ▸ hm, ?_, ?_⟩
        · unfold relink_subpart_part
          rw [hu, hscan, hbp]
        · intro c hc hce
          exact hbd ▸ (scanAnchors_le s e anchors none m p hscan).2 c hc hce

/-- Witness for C1: with fruit/seed anchors at token distances 10 and 60 the
subpart is relinked to the distance-10 anchor's part value; with anchors at
60 and 80 only, it falls back to the static table (`"achene"` maps to
`"fruit"`). -/
theorem relink_uses_nearest_anchor_within_threshold_witness :
    relink_subpart_part [⟨20, 21, "seed"⟩, ⟨70, 71, "fruit"⟩] 9 10 "achene" = "seed"
    ∧ relink_subpart_part [⟨70, 71, "fruit"⟩, ⟨90, 91, "seed"⟩] 9 10 "achene" = "fruit"
    ∧ ∃ b ∈ ([⟨20, 21, "seed"⟩, ⟨70, 71, "fruit"⟩] : List Anchor),
        entDist b 9 10 < 50 ∧
        relink_subpart_part [⟨20, 21, "seed"⟩, ⟨70, 71, "fruit"⟩] 9 10 "achene" = b.part ∧
        ∀ c ∈ ([⟨20, 21, "seed"⟩, ⟨70, 71, "fruit"⟩] : List Anchor),
          entDist c 9 10 < 50 → entDist b 9 10 ≤ entDist c 9 10 := by
  refine ⟨by decide, ?_, ?_⟩
  · exact (relink_uses_nearest_anchor_within_threshold _ 9 10 "achene" "fruit"
      (by decide)).1 (by decide)
  · exact (relink_uses_nearest_anchor_within_threshold _ 9 10 "achene" "fruit"
      (by decide)).2 ⟨20, 21, "seed"⟩ (by decide) (by decide)

theorem mem_setInsert (s : List String) (x y : String) :
    y ∈ setInsert s x ↔ y ∈ s ∨ y = x := by
  unfold setInsert
  by_cases h : x ∈ s
  · rw [if_pos h]
    exact ⟨Or.inl, fun hy => hy.elim id (fun he => he ▸ h)⟩
  · rw [if_neg h]
    simp

theorem addTraitToken_fst_mem (pa : List String × List String) (g : List Char)
    (name : String) :
    name ∈ (addTraitToken pa g).1 ↔ name ∈ pa.1 ∨ groupPresentName g = some name := by
  unfold addTraitToken groupPresentName
  by_cases h1 : (⟨trimData g⟩ : String) ∈ DISPERSAL_TRAIT_NAMES
  · simp only [if_pos h1, mem_setInsert]
    constructor
    · rintro (hy | rfl)
      · exact Or.inl hy
      · exact Or.inr rfl
    · rintro (hy | he)
      · exact Or.inl hy
      · exact Or.inr (Option.some_inj.mp he).symm
  · simp only [if_neg h1]
    by_cases h2 : "_absent".data.isSuffixOf (⟨trimData g⟩ : String).data
    · simp only [if_pos h2]
      by_cases h3 : (⟨(⟨trimData g⟩ : String).data.take ((⟨trimData g⟩ : String).data.length - 7)⟩ : String) ∈ DISPERSAL_TRAIT_NAMES
      · simp [h3]
      · simp [h3]
    · simp [h2]

theorem addTraitToken_snd_mem (pa : List String × List String) (g : List Char)
    (name : String) :
    name ∈ (addTraitToken pa g).2 ↔ name ∈ pa.2 ∨ groupAbsentName g = some name := by
  unfold addTraitToken groupAbsentName
  by_cases h1 : (⟨trimData g⟩ : String) ∈ DISPERSAL_TRAIT_NAMES
  · simp [h1]
  · simp only [if_neg h1]
    by_cases h2 : "_absent".data.isSuffixOf (⟨trimData g⟩ : String).data
    · simp only [if_pos h2]
      by_cases h3 : (⟨(⟨trimData g⟩ : String).data.take ((⟨trimData g⟩ : String).data.length - 7)⟩ : String) ∈ DISPERSAL_TRAIT_NAMES
      · simp only [if_pos h3, mem_setInsert]
        constructor
        · rintro (hy | rfl)
          · exact Or.inl hy
          · exact Or.inr rfl
        · rintro (hy | he)
          · exact Or.inl hy
          · exact Or.inr (Option.some_inj.mp he).symm
      · simp [h3]
    · simp [h2]

theorem foldl_addTraitToken_fst (groups : List (List Char)) (p a : List String)
    (name : String) :
    name ∈ (groups.foldl addTraitToken (p, a)).1 ↔
      name ∈ p ∨ ∃ g ∈ groups, groupPresentName g = some name := by
  induction groups generalizing p a with
  | nil => simp
  | cons g gs ih =>
    rw [List.foldl_cons]
    have heq : gs.foldl addTraitToken (addTraitToken (p, a) g) =
        gs.foldl addTraitToken ((addTraitToken (p, a) g).1, (addTraitToken (p, a) g).2) := rfl
    rw [heq, ih, addTraitToken_fst_mem]
    simp only [List.mem_cons]
    constructor
    · rintro ((hp | hg) | ⟨g', hg', he⟩)
      · exact Or.inl hp
      · exact Or.inr ⟨g, Or.inl rfl, hg⟩
      · exact Or.inr ⟨g', Or.inr hg', he⟩
    · rintro (hp | ⟨g', (rfl | hg'), he⟩)
      · exact Or.inl (Or.inl hp)
      · exact Or.inl (Or.inr he)
      · exact Or.inr ⟨g', hg', he⟩

theorem foldl_addTraitToken_snd (groups : List (List Char)) (p a : List String)
    (name : String) :
    name ∈ (groups.foldl addTraitToken (p, a)).2 ↔
      name ∈ a ∨ ∃ g ∈ groups, groupAbsentName g = some name := by
  induction groups generalizing p a with
  | nil => simp
  | cons g gs ih =>
    rw [List.foldl_cons]
    have heq : gs.foldl addTraitToken (addTraitToken (p, a) g) =
        gs.foldl addTraitToken ((addTraitToken (p, a) g).1, (addTraitToken (p, a) g).2) := rfl
    rw [heq, ih, addTraitToken_snd_mem]
    simp only [List.mem_cons]
    constructor
    · rintro ((hp | hg) | ⟨g', hg', he⟩)
      · exact Or.inl hp
      · exact Or.inr ⟨g, Or.inl rfl, hg⟩
      · exact Or.inr ⟨g', Or.inr hg', he⟩
    · rintro (hp | ⟨g', (rfl | hg'), he⟩)
      · exact Or.inl (Or.inl hp)
      · exact Or.inl (Or.inr he)
      · exact Or.inr ⟨g', hg', he⟩

theorem collectStep_present_mem (allowed san : List String) (acc : CollectOut)
    (kv : String × PVal) (name : String) :
    name ∈ (collectStep allowed san acc kv).present ↔
      name ∈ acc.present ∨ presContribB allowed kv name = true := by
  rcases kv with ⟨key, value⟩
  by_cases h1 : startsWithStr "dispersal_keyword_" key = true
  · have hp : (collectStep allowed san acc (key, value)).present = acc.present := by
      simp only [collectStep]
      rw [if_pos h1]
      split <;> rfl
    rw [hp]
    simp [presContribB, h1]
  · by_cases h1b : startsWithStr "fruit_type_keyword_" key = true
    · have hp : (collectStep allowed san acc (key, value)).present = acc.present := by
        simp only [collectStep]
        rw [if_neg h1, if_pos h1b]
        split <;> rfl
      rw [hp]
      simp [presContribB, h1, h1b]
    · match hpart : part_from_dispersal_key key with
      | none =>
        have hp : (collectStep allowed san acc (key, value)).present = acc.present := by
          simp only [collectStep, hpart]
          rw [if_neg h1, if_neg h1b]
        rw [hp]
        simp [presContribB, h1, h1b, hpart]
      | some part =>
        by_cases hall : part ∈ allowed
        · match value with
          | PVal.null =>
            have hp : (collectStep allowed san acc (key, PVal.null)).present = acc.present := by
              simp only [collectStep, hpart]
              rw [if_neg h1, if_neg h1b, if_pos hall]
            rw [hp]
            simp [presContribB, h1, h1b, hpart]
          | PVal.str s =>
            have hp : (collectStep allowed san acc (key, PVal.str s)).present =
                ((splitCh '|' (trimData (pyStr (PVal.str s)).data)).foldl addTraitToken
                  (acc.present, acc.absent)).1 := by
              simp only [collectStep, hpart]
              rw [if_neg h1, if_neg h1b, if_pos hall]
            rw [hp, foldl_addTraitToken_fst]
            simp [presContribB, h1, h1b, hpart, hall, List.any_eq_true]
          | PVal.nat n =>
            have hp : (collectStep allowed san acc (key, PVal.nat n)).present =
                ((splitCh '|' (trimData (pyStr (PVal.nat n)).data)).foldl addTraitToken
                  (acc.present, acc.absent)).1 := by
              simp only [collectStep, hpart]
              rw [if_neg h1, if_neg h1b, if_pos hall]
            rw [hp, foldl_addTraitToken_fst]
            simp [presContribB, h1, h1b, hpart, hall, List.any_eq_true]
        · have hp : (collectStep allowed san acc (key, value)).present = acc.present := by
            simp only [collectStep, hpart]
            rw [if_neg h1, if_neg h1b, if_neg hall]
          rw [hp]
          simp [presContribB, h1, h1b, hpart, hall]

theorem collectStep_absent_mem (allowed san : List String) (acc : CollectOut)
    (kv : String × PVal) (name : String) :
    name ∈ (collectStep allowed san acc kv).absent ↔
      name ∈ acc.absent ∨ absContribB allowed kv name = true := by
  rcases kv with ⟨key, value⟩
  by_cases h1 : startsWithStr "dispersal_keyword_" key = true
  · have hp : (collectStep allowed san acc (key, value)).absent = acc.absent := by
      simp only [collectStep]
      rw [if_pos h1]
      split <;> rfl
    rw [hp]
    simp [absContribB, h1]
  · by_cases h1b : startsWithStr "fruit_type_keyword_" key = true
    · have hp : (collectStep allowed san acc (key, value)).absent = acc.absent := by
        simp only [collectStep]
        rw [if_neg h1, if_pos h1b]
        split <;> rfl
      rw [hp]
      simp [absContribB, h1, h1b]
    · match hpart : part_from_dispersal_key key with
      | none =>
        have hp : (collectStep allowed san acc (key, value)).absent = acc.absent := by
          simp only [collectStep, hpart]
          rw [if_neg h1, if_neg h1b]
        rw [hp]
        simp [absContribB, h1, h1b, hpart]
      | some part =>
        by_cases hall : part ∈ allowed
        · match value with
          | PVal.null =>
            have hp : (collectStep allowed san acc (key, PVal.null)).absent = acc.absent := by
              simp only [collectStep, hpart]
              rw [if_neg h1, if_neg h1b, if_pos hall]
            rw [hp]
            simp [absContribB, h1, h1b, hpart]
          | PVal.str s =>
            have hp : (collectStep allowed san acc (key, PVal.str s)).absent =
                ((splitCh '|' (trimData (pyStr (PVal.str s)).data)).foldl addTraitToken
                  (acc.present, acc.absent)).2 := by
              simp only [collectStep, hpart]
              rw [if_neg h1, if_neg h1b, if_pos hall]
            rw [hp, foldl_addTraitToken_snd]
            simp [absContribB, h1, h1b, hpart, hall, List.any_eq_true]
          | PVal.nat n =>
            have hp : (collectStep allowed san acc (key, PVal.nat n)).absent =
                ((splitCh '|' (trimData (pyStr (PVal.nat n)).data)).foldl addTraitToken
                  (acc.present, acc.absent)).2 := by
              simp only [collectStep, hpart]
              rw [if_neg h1, if_neg h1b, if_pos hall]
            rw [hp, foldl_addTraitToken_snd]
            simp [absContribB, h1, h1b, hpart, hall, List.any_eq_true]
        · have hp : (collectStep allowed san acc (key, value)).absent = acc.absent := by
            simp only [collectStep, hpart]
            rw [if_neg h1, if_neg h1b, if_neg hall]
          rw [hp]
          simp [absContribB, h1, h1b, hpart, hall]

theorem foldl_collectStep_present (allowed san : List String) (l : Bag)
    (acc : CollectOut) (name : String) :
    name ∈ (l.foldl (collectStep allowed san) acc).present ↔
      name ∈ acc.present ∨ ∃ kv ∈ l, presContribB allowed kv name = true := by
  induction l generalizing acc with
  | nil => simp
  | cons kv rest ih =>
    rw [List.foldl_cons, ih, collectStep_present_mem]
    simp only [List.mem_cons]
    constructor
    · rintro ((hp | hc) | ⟨kv', hkv', hc'⟩)
      · exact Or.inl hp
      · exact Or.inr ⟨kv, Or.inl rfl, hc⟩
      · exact Or.inr ⟨kv', Or.inr hkv', hc'⟩
    · rintro (hp | ⟨kv', (rfl | hkv'), hc'⟩)
      · exact Or.inl (Or.inl hp)
      · exact Or.inl (Or.inr hc')
      · exact Or.inr ⟨kv', hkv', hc'⟩

theorem foldl_collectStep_absent (allowed san : List String) (l : Bag)
    (acc : CollectOut) (name : String) :
    name ∈ (l.foldl (collectStep allowed san) acc).absent ↔
      name ∈ acc.absent ∨ ∃ kv ∈ l, absContribB allowed kv name = true := by
  induction l generalizing acc with
  | nil => simp
  | cons kv rest ih =>
    rw [List.foldl_cons, ih, collectStep_absent_mem]
    simp only [List.mem_cons]
    constructor
    · rintro ((hp | hc) | ⟨kv', hkv', hc'⟩)
      · exact Or.inl hp
      · exact Or.inr ⟨kv, Or.inl rfl, hc⟩
      · exact Or.inr ⟨kv', Or.inr hkv', hc'⟩
    · rintro (hp | ⟨kv', (rfl | hkv'), hc'⟩)
      · exact Or.inl (Or.inl hp)
      · exact Or.inl (Or.inr hc')
      · exact Or.inr ⟨kv', hkv', hc'⟩

/-- Membership characterisation of the collected present set: exactly the
names contributed by some allowed-part dispersal key with a non-null value. -/
theorem collect_present_iff (allowed : List String) (d : Bag) (name : String) :
    name ∈ (collect_dispersal_by_allowed_parts allowed d).present ↔
      ∃ kv ∈ d, presContribB allowed kv name = true := by
  unfold collect_dispersal_by_allowed_parts
  rw [foldl_collectStep_present]
  simp

/-- Membership characterisation of the collected absent set. -/
theorem collect_absent_iff (allowed : List String) (d : Bag) (name : String) :
    name ∈ (collect_dispersal_by_allowed_parts allowed d).absent ↔
      ∃ kv ∈ d, absContribB allowed kv name = true := by
  unfold collect_dispersal_by_allowed_parts
  rw [foldl_collectStep_absent]
  simp

/-! ### `keysToRemove` lemmas -/

/-- One collect step either leaves the removal list unchanged or appends the
processed key. -/
theorem collectStep_remove_eq (allowed san : List String) (acc : CollectOut)
    (key : String) (value : PVal) :
    (collectStep allowed san acc (key, value)).keysToRemove = acc.keysToRemove ∨
      (collectStep allowed san acc (key, value)).keysToRemove = acc.keysToRemove ++ [key] := by
  by_cases h1 : startsWithStr "dispersal_keyword_" key = true
  · refine Or.inr ?_
    simp only [collectStep]
    rw [if_pos h1]
    split <;> rfl
  · by_cases h1b : startsWithStr "fruit_type_keyword_" key = true
    · refine Or.inr ?_
      simp only [collectStep]
      rw [if_neg h1, if_pos h1b]
      split <;> rfl
    · match hpart : part_from_dispersal_key key with
      | none =>
        refine Or.inl ?_
        simp only [collectStep, hpart]
        rw [if_neg h1, if_neg h1b]
      | some part =>
        refine Or.inr ?_
        simp only [collectStep, hpart]
        rw [if_neg h1, if_neg h1b]
        by_cases hall : part ∈ allowed
        · rw [if_pos hall]
          cases value <;> rfl
        · rw [if_neg hall]

/-- A consumed key (keyword-provenance key or dispersal key) is appended to
the removal list when its own entry is processed. -/
theorem collectStep_remove_self (allowed san : List String) (acc : CollectOut)
    (key : String) (value : PVal) (h : consumedKeyB key = true) :
    key ∈ (collectStep allowed san acc (key, value)).keysToRemove := by
  by_cases h1 : startsWithStr "dispersal_keyword_" key = true
  · have hr : (collectStep allowed san acc (key, value)).keysToRemove =
        acc.keysToRemove ++ [key] := by
      simp only [collectStep]
      rw [if_pos h1]
      split <;> rfl
    rw [hr]
    simp
  · by_cases h1b : startsWithStr "fruit_type_keyword_" key = true
    · have hr : (collectStep allowed san acc (key, value)).keysToRemove =
          acc.keysToRemove ++ [key] := by
        simp only [collectStep]
        rw [if_neg h1, if_pos h1b]
        split <;> rfl
      rw [hr]
      simp
    · have hpart : (part_from_dispersal_key key).isSome := by
        unfold consumedKeyB at h
        simp [h1, h1b] at h
        simp [h]
      obtain ⟨part, hp⟩ := Option.isSome_iff_exists.mp hpart
      have hr : (collectStep allowed san acc (key, value)).keysToRemove =
          acc.keysToRemove ++ [key] := by
        simp only [collectStep, hp]
        rw [if_neg h1, if_neg h1b]
        by_cases hall : part ∈ allowed
        · rw [if_pos hall]
          cases value <;> rfl
        · rw [if_neg hall]
      rw [hr]
      simp

/-- The removal list only grows along the fold. -/
theorem foldl_collectStep_remove_mono (allowed san : List String) (l : Bag)
    (acc : CollectOut) (k : String) (h : k ∈ acc.keysToRemove) :
    k ∈ (l.foldl (collectStep allowed san) acc).keysToRemove := by
  induction l generalizing acc with
  | nil => exact h
  | cons kv rest ih =>
    rw [List.foldl_cons]
    refine ih _ ?_
    rcases kv with ⟨key, value⟩
    rcases collectStep_remove_eq allowed san acc key value with he | he
    · rw [he]; exact h
    · rw [he]; exact List.mem_append_left _ h

/-- Along the whole fold, each consumed key of the processed list ends up in
the removal list (for any sanitized-keyword set). -/
theorem foldl_collectStep_remove (allowed san : List String) (l : Bag)
    (acc : CollectOut) (kv : String × PVal) (hkv : kv ∈ l)
    (h : consumedKeyB kv.1 = true) :
    kv.1 ∈ (l.foldl (collectStep allowed san) acc).keysToRemove := by
  induction l generalizing acc with
  | nil => cases hkv
  | cons a rest ih =>
    rw [List.foldl_cons]
    rcases List.mem_cons.mp hkv with rfl | hmem
    · refine foldl_collectStep_remove_mono _ _ _ _ _ ?_
      rcases kv with ⟨key, value⟩
      exact collectStep_remove_self _ _ _ _ _ h
    · exact ih _ hmem

/-- Every consumed key of the bag ends up in the removal list - whether or
not its part passed the allowed filter, and whatever its value. -/
theorem collect_removes_consumed (allowed : List String) (d : Bag)
    (kv : String × PVal) (hkv : kv ∈ d) (h : consumedKeyB kv.1 = true) :
    kv.1 ∈ (collect_dispersal_by_allowed_parts allowed d).keysToRemove := by
  unfold collect_dispersal_by_allowed_parts
  exact foldl_collectStep_remove allowed _ d _ kv hkv h

/-! ### `mkTraits` lookup lemmas -/

theorem lookup_append_bval (l1 l2 : List (String × BVal)) (k : String) :
    (l1 ++ l2).lookup k =
      match l1.lookup k with
      | some v => some v
      | none => l2.lookup k := by
  induction l1 with
  | nil => simp [List.lookup]
  | cons a rest ih =>
    rcases a with ⟨a1, a2⟩
    by_cases he : (k == a1) = true
    · simp [List.lookup, he]
    · have he' : (k == a1) = false := by
        cases hb : (k == a1)
        · rfl
        · exact absurd hb he
      simp [List.lookup, he', ih]

theorem mkTraits_lookup_none (names present absent : List String) (name : String)
    (h : name ∉ names) : (mkTraits names present absent).lookup name = none := by
  induction names with
  | nil => rfl
  | cons n rest ih =>
    have hne : (name == n) = false :=
      beq_eq_false_iff_ne.mpr fun he => h (he ▸ List.mem_cons_self n rest)
    have hrest : name ∉ rest := fun hm => h (List.mem_cons_of_mem n hm)
    unfold mkTraits
    by_cases hp : n ∈ present
    · simp [hp, List.lookup, hne, ih hrest]
    · by_cases ha : n ∈ absent
      · simp [hp, ha, List.lookup, hne, ih hrest]
      · simp [hp, ha, ih hrest]

theorem mkTraits_lookup (names present absent : List String) (name : String)
    (hnd : names.Nodup) (h : name ∈ names) :
    (mkTraits names present absent).lookup name =
      if name ∈ present then some (BVal.num 1)
      else if name ∈ absent then some (BVal.num 0)
      else none := by
  induction names with
  | nil => cases h
  | cons n rest ih =>
    have hnr : n ∉ rest := (List.nodup_cons.mp hnd).1
    have hrest : rest.Nodup := (List.nodup_cons.mp hnd).2
    rcases List.mem_cons.mp h with rfl | hmem
    · unfold mkTraits
      by_cases hp : name ∈ present
      · simp [hp, List.lookup]
      · by_cases ha : name ∈ absent
        · simp [hp, ha, List.lookup]
        · simp [hp, ha, mkTraits_lookup_none rest present absent name hnr]
    · have hne : name ≠ n := fun he => hnr (he ▸ hmem)
      have hbne : (name == n) = false := beq_eq_false_iff_ne.mpr hne
      unfold mkTraits
      by_cases hp : n ∈ present
      · simp only [hp, if_true, List.singleton_append, List.lookup, hbne]
        exact ih hrest hmem
      · by_cases ha : n ∈ absent
        · simp only [hp, if_false, ha, if_true, List.singleton_append, List.lookup, hbne]
          exact ih hrest hmem
        · simp only [hp, ha, if_false, List.nil_append]
          exact ih hrest hmem

/-- Master lookup lemma for the emitted traits block: for a vocabulary name,
the block entry is `1`/`0`/missing exactly by present/absent-only/neither. -/
theorem build_block_lookup (allowed : List String)
    (implied : List (String × List String)) (dyn : Bag) (name : String)
    (h : name ∈ DISPERSAL_TRAIT_NAMES) :
    (build_dispersal_block allowed implied dyn).traits.lookup name =
      if name ∈ build_present allowed implied dyn then some (BVal.num 1)
      else if name ∈ (collect_dispersal_by_allowed_parts allowed dyn).absent then some (BVal.num 0)
      else none := by
  have hnf : name ≠ "fruitType" := by
    intro he
    rw [he] at h
    exact absurd h (by decide)
  have hnd : DISPERSAL_TRAIT_NAMES.Nodup := by decide
  have htr : (build_dispersal_block allowed implied dyn).traits =
      mkTraits DISPERSAL_TRAIT_NAMES (build_present allowed implied dyn)
        (collect_dispersal_by_allowed_parts allowed dyn).absent ++
        (match build_fruit_type_value dyn with
         | some v => [("fruitType", BVal.str v)]
         | none => []) := by
    simp only [build_dispersal_block, build_present]
  rw [htr, lookup_append_bval, mkTraits_lookup _ _ _ _ hnd h]
  have hbf : (name == "fruitType") = false := beq_eq_false_iff_ne.mpr hnf
  by_cases hp : name ∈ build_present allowed implied dyn
  · simp [hp]
  · by_cases ha : name ∈ (collect_dispersal_by_allowed_parts allowed dyn).absent
    · simp [hp, ha]
    · simp only [hp, ha, if_false]
      match build_fruit_type_value dyn with
      | some v => simp [List.lookup, hbf]
      | none => simp [List.lookup]

theorem foldl_setInsert_mem (l s : List String) (name : String) :
    name ∈ l.foldl setInsert s ↔ name ∈ s ∨ name ∈ l := by
  induction l generalizing s with
  | nil => simp
  | cons a rest ih =>
    rw [List.foldl_cons, ih, mem_setInsert]
    simp only [List.mem_cons]
    tauto

/-- Membership in the present set used by the block builder: either collected
from an allowed-part dispersal key, or implied by the bag's fruit type. -/
theorem build_present_mem (allowed : List String)
    (implied : List (String × List String)) (dyn : Bag) (name : String) :
    name ∈ build_present allowed implied dyn ↔
      name ∈ (collect_dispersal_by_allowed_parts allowed dyn).present ∨
      (∃ v, build_fruit_type_value dyn = some v ∧ toLowerS v ≠ "" ∧
        name ∈ (implied.lookup (toLowerS v)).getD []) := by
  unfold build_present
  match hft : build_fruit_type_value dyn with
  | none => simp
  | some v =>
    by_cases hlo : toLowerS v = ""
    · simp [hlo]
    · simp [hlo, foldl_setInsert_mem]

/-- C3: the emitted traits block maps a vocabulary trait name to `1` exactly
when it was classified present (collected from an allowed-part key or implied
by the bag's fruit type), to `0` exactly when it was classified absent and
not present, and has no entry at all when it is in neither set - an unknown
trait is never encoded as `0`. -/
theorem traits_block_ternary (allowed : List String)
    (implied : List (String × List String)) (dyn : Bag) (name : String)
    (h : name ∈ DISPERSAL_TRAIT_NAMES) :
    ((build_dispersal_block allowed implied dyn).traits.lookup name = some (BVal.num 1) ↔
      name ∈ build_present allowed implied dyn)
    ∧ ((build_dispersal_block allowed implied dyn).traits.lookup name = some (BVal.num 0) ↔
      (name ∉ build_present allowed implied dyn ∧
        name ∈ (collect_dispersal_by_allowed_parts allowed dyn).absent))
    ∧ ((build_dispersal_block allowed implied dyn).traits.lookup name = none ↔
      (name ∉ build_present allowed implied dyn ∧
        name ∉ (collect_dispersal_by_allowed_parts allowed dyn).absent)) := by
  have hl := build_block_lookup allowed implied dyn name h
  by_cases hp : name ∈ build_present allowed implied dyn
  · rw [hl]
    simp [hp]
  · by_cases ha : name ∈ (collect_dispersal_by_allowed_parts allowed dyn).absent
    · rw [hl]
      simp [hp, ha]
    · rw [hl]
      simp [hp, ha]

/-- Witness for C3 at a concrete bag: `fruitDispersalTraits = "wing"` puts
`wing` at `1`, driven by membership in the computed present set. -/
theorem traits_block_ternary_witness :
    ((build_dispersal_block ["fruit", "seed"] []
        [("fruitDispersalTraits", PVal.str "wing")]).traits.lookup "wing" = some (BVal.num 1) ↔
      "wing" ∈ build_present ["fruit", "seed"] [] [("fruitDispersalTraits", PVal.str "wing")])
    ∧ ((build_dispersal_block ["fruit", "seed"] []
        [("fruitDispersalTraits", PVal.str "wing")]).traits.lookup "wing" = some (BVal.num 0) ↔
      ("wing" ∉ build_present ["fruit", "seed"] [] [("fruitDispersalTraits", PVal.str "wing")] ∧
        "wing" ∈ (collect_dispersal_by_allowed_parts ["fruit", "seed"]
          [("fruitDispersalTraits", PVal.str "wing")]).absent))
    ∧ ((build_dispersal_block ["fruit", "seed"] []
        [("fruitDispersalTraits", PVal.str "wing")]).traits.lookup "wing" = none ↔
      ("wing" ∉ build_present ["fruit", "seed"] [] [("fruitDispersalTraits", PVal.str "wing")] ∧
        "wing" ∉ (collect_dispersal_by_allowed_parts ["fruit", "seed"]
          [("fruitDispersalTraits", PVal.str "wing")]).absent)) :=
  traits_block_ternary ["fruit", "seed"] [] [("fruitDispersalTraits", PVal.str "wing")] "wing"
    (by decide)

/-- C5: a dispersal trait never classified by any allowed-part key (the
allowed set being `{"fruit", "seed"}` plus the canonical fruit-type names)
and not implied by the bag's fruit type never appears in the emitted traits
block; in particular a trait linked only to `"stem"` cannot surface. -/
theorem disallowed_part_never_surfaces (ftNames : List String)
    (implied : List (String × List String)) (dyn : Bag) (name : String)
    (hname : name ∈ DISPERSAL_TRAIT_NAMES)
    (hnc : ∀ kv ∈ dyn, presContribB (allowed_dispersal_parts ftNames) kv name = false ∧
      absContribB (allowed_dispersal_parts ftNames) kv name = false)
    (himp : ∀ v, build_fruit_type_value dyn = some v →
      name ∉ (implied.lookup (toLowerS v)).getD []) :
    (build_dispersal_block (allowed_dispersal_parts ftNames) implied dyn).traits.lookup name = none := by
  rw [build_block_lookup _ _ _ _ hname]
  have hp : name ∉ build_present (allowed_dispersal_parts ftNames) implied dyn := by
    rw [build_present_mem]
    rintro (hpp | ⟨v, hv, _, hm⟩)
    · obtain ⟨kv, hkv, hc⟩ := (collect_present_iff _ _ _).mp hpp
      rw [(hnc kv hkv).1] at hc
      cases hc
    · exact himp v hv hm
  have ha : name ∉ (collect_dispersal_by_allowed_parts (allowed_dispersal_parts ftNames) dyn).absent := by
    rw [collect_absent_iff]
    rintro ⟨kv, hkv, hc⟩
    rw [(hnc kv hkv).2] at hc
    cases hc
  simp [hp, ha]

/-- Witness for C5: a bag whose only dispersal key is linked to `"stem"`
yields no `wing` entry in the traits block. -/
theorem disallowed_part_never_surfaces_witness :
    (build_dispersal_block (allowed_dispersal_parts []) []
      [("stemDispersalTraits", PVal.str "wing")]).traits.lookup "wing" = none :=
  disallowed_part_never_surfaces [] [] [("stemDispersalTraits", PVal.str "wing")] "wing"
    (by decide) (by decide)
    (by
      intro v hv
      rw [show build_fruit_type_value [("stemDispersalTraits", PVal.str "wing")] = none
        from rfl] at hv
      cases hv)

/-! ### Frame lemmas for the mutating formatter -/

theorem pyDictSet_entry_mem (d : Bag) (k : String) (v : PVal) (kv : String × PVal)
    (h : kv ∈ pyDictSet d k v) : kv ∈ d ∨ kv.1 = k := by
  unfold pyDictSet at h
  by_cases hc : d.any (fun kv => kv.1 == k) = true
  · rw [if_pos hc] at h
    obtain ⟨kv', hkv', he⟩ := List.mem_map.mp h
    by_cases h2 : (kv'.1 == k) = true
    · rw [if_pos h2] at he
      exact Or.inr (he ▸ rfl)
    · rw [if_neg h2] at he
      exact Or.inl (he ▸ hkv')
  · rw [if_neg hc] at h
    rcases List.mem_append.mp h with hm | hm
    · exact Or.inl hm
    · rcases List.mem_singleton.mp hm with rfl
      exact Or.inr rfl

/-- Entries after the 0/1 writing loop come from the filtered bag or carry a
vocabulary name as key. -/
theorem foldl_write_entry_mem (names p a : List String) (d : Bag)
    (kv : String × PVal)
    (h : kv ∈ names.foldl
      (fun d name =>
        if name ∈ p then pyDictSet d name (PVal.nat 1)
        else if name ∈ a then pyDictSet d name (PVal.nat 0)
        else d) d) :
    kv ∈ d ∨ kv.1 ∈ names := by
  induction names generalizing d with
  | nil => exact Or.inl h
  | cons n rest ih =>
    rw [List.foldl_cons] at h
    rcases ih _ h with hm | hm
    · by_cases hp : n ∈ p
      · rw [if_pos hp] at hm
        rcases pyDictSet_entry_mem _ _ _ _ hm with hm' | hm'
        · exact Or.inl hm'
        · exact Or.inr (hm' ▸ List.mem_cons_self n rest)
      · by_cases ha : n ∈ a
        · rw [if_neg hp, if_pos ha] at hm
          rcases pyDictSet_entry_mem _ _ _ _ hm with hm' | hm'
          · exact Or.inl hm'
          · exact Or.inr (hm' ▸ List.mem_cons_self n rest)
        · rw [if_neg hp, if_neg ha] at hm
          exact Or.inl hm
    · exact Or.inr (List.mem_cons_of_mem n hm)

/-- Every entry of the mutated bag either survived the key filter or was
written by the 0/1 loop (so its key is a vocabulary name). -/
theorem format_entry_mem (allowed : List String)
    (implied : List (String × List String)) (dyn : Bag) (kv : String × PVal)
    (h : kv ∈ format_dispersal_in_dynamic_properties allowed implied dyn) :
    (kv ∈ dyn ∧
      kv.1 ∉ (collect_dispersal_by_allowed_parts allowed dyn).keysToRemove) ∨
      kv.1 ∈ DISPERSAL_TRAIT_NAMES := by
  unfold format_dispersal_in_dynamic_properties at h
  rcases foldl_write_entry_mem _ _ _ _ _ h with hm | hm
  · have := List.mem_filter.mp hm
    refine Or.inl ⟨this.1, ?_⟩
    have hd := this.2
    simpa using hd
  · exact Or.inr hm

theorem presContribB_parts (allowed : List String) (kv : String × PVal)
    (name : String) (h : presContribB allowed kv name = true) :
    kv.2 ≠ PVal.null ∧ (part_from_dispersal_key kv.1).isSome = true := by
  unfold presContribB at h
  simp only [Bool.and_eq_true] at h
  refine ⟨by simpa using h.1.2, ?_⟩
  have hpart := h.1.1.2
  match hp : part_from_dispersal_key kv.1 with
  | some part => rfl
  | none =>
    rw [hp] at hpart
    simp at hpart

theorem absContribB_parts (allowed : List String) (kv : String × PVal)
    (name : String) (h : absContribB allowed kv name = true) :
    kv.2 ≠ PVal.null ∧ (part_from_dispersal_key kv.1).isSome = true := by
  unfold absContribB at h
  simp only [Bool.and_eq_true] at h
  refine ⟨by simpa using h.1.2, ?_⟩
  have hpart := h.1.1.2
  match hp : part_from_dispersal_key kv.1 with
  | some part => rfl
  | none =>
    rw [hp] at hpart
    simp at hpart

/-- C9: the mutating aggregation step removes every consumed source key
(dispersal-traits keys and keyword-provenance keys) from the bag regardless
of filter outcome or value, and null-valued entries contribute nothing to the
present or absent sets (dropping them changes neither set). -/
theorem aggregation_removes_consumed_sources (allowed : List String)
    (implied : List (String × List String)) (dyn : Bag) :
    (∀ kv ∈ dyn, consumedKeyB kv.1 = true →
      kv.1 ∉ (format_dispersal_in_dynamic_properties allowed implied dyn).map Prod.fst)
    ∧ (∀ name, name ∈ (collect_dispersal_by_allowed_parts allowed dyn).present ↔
        name ∈ (collect_dispersal_by_allowed_parts allowed
          (dyn.filter (fun kv => kv.2 != PVal.null))).present)
    ∧ (∀ name, name ∈ (collect_dispersal_by_allowed_parts allowed dyn).absent ↔
        name ∈ (collect_dispersal_by_allowed_parts allowed
          (dyn.filter (fun kv => kv.2 != PVal.null))).absent) := by
  refine ⟨?_, ?_, ?_⟩
  · intro kv hkv hcons hmem
    obtain ⟨kv', hkv', he⟩ := List.mem_map.mp hmem
    rcases format_entry_mem allowed implied dyn kv' hkv' with ⟨hin, hnr⟩ | hnames
    · exact hnr (he ▸ collect_removes_consumed allowed dyn kv hkv hcons)
    · have hfalse : ∀ n ∈ DISPERSAL_TRAIT_NAMES, consumedKeyB n = false := by decide
      have := hfalse kv'.1 hnames
      rw [he] at this
      rw [hcons] at this
      cases this
  · intro name
    rw [collect_present_iff, collect_present_iff]
    constructor
    · rintro ⟨kv, hkv, hc⟩
      refine ⟨kv, List.mem_filter.mpr ⟨hkv, ?_⟩, hc⟩
      have := (presContribB_parts allowed kv name hc).1
      simpa using this
    · rintro ⟨kv, hkv, hc⟩
      exact ⟨kv, (List.mem_filter.mp hkv).1, hc⟩
  · intro name
    rw [collect_absent_iff, collect_absent_iff]
    constructor
    · rintro ⟨kv, hkv, hc⟩
      refine ⟨kv, List.mem_filter.mpr ⟨hkv, ?_⟩, hc⟩
      have := (absContribB_parts allowed kv name hc).1
      simpa using this
    · rintro ⟨kv, hkv, hc⟩
      exact ⟨kv, (List.mem_filter.mp hkv).1, hc⟩

theorem mkTraits_eq_nil (names p a : List String)
    (h : ∀ n ∈ names, n ∉ p ∧ n ∉ a) : mkTraits names p a = [] := by
  induction names with
  | nil => rfl
  | cons n rest ih =>
    have hn := h n (List.mem_cons_self n rest)
    unfold mkTraits
    simp [hn.1, hn.2, ih fun m hm => h m (List.mem_cons_of_mem n hm)]

/-- C6 (amended): re-running the aggregation on the bag produced by the first
run yields an empty traits block PROVIDED the bag carries no non-null
`fruitType` key; the surviving `fruitType` key is what breaks the claim in
general (see the counterexample). -/
theorem second_aggregation_empty_without_fruit_type (allowed : List String)
    (implied : List (String × List String)) (dyn : Bag)
    (hft : ∀ v, ("fruitType", v) ∈ dyn → v = PVal.null) :
    (build_dispersal_block allowed implied
      (format_dispersal_in_dynamic_properties allowed implied dyn)).traits = [] := by
  have hnodisp : ∀ kv ∈ format_dispersal_in_dynamic_properties allowed implied dyn,
      (part_from_dispersal_key kv.1).isSome = false := by
    intro kv hkv
    rcases format_entry_mem allowed implied dyn kv hkv with ⟨hin, hnr⟩ | hnames
    · cases hp : (part_from_dispersal_key kv.1).isSome
      · rfl
      · exfalso
        apply hnr
        apply collect_removes_consumed allowed dyn kv hin
        unfold consumedKeyB
        simp [hp]
    · have hv : ∀ n ∈ DISPERSAL_TRAIT_NAMES, (part_from_dispersal_key n).isSome = false := by
        decide
      exact hv kv.1 hnames
  have hfind : (format_dispersal_in_dynamic_properties allowed implied dyn).find?
      (fun kv => decide (kv.1 = "fruitType" ∧ kv.2 ≠ PVal.null)) = none := by
    rw [List.find?_eq_none]
    intro kv hkv
    simp only [decide_eq_true_eq, not_and, ne_eq, not_not]
    intro h1
    rcases format_entry_mem allowed implied dyn kv hkv with ⟨hin, -⟩ | hnames
    · obtain ⟨k1, v1⟩ := kv
      simp only at h1
      subst h1
      exact hft v1 hin
    · rw [h1] at hnames
      exact absurd hnames (by decide)
  have hft2 : build_fruit_type_value
      (format_dispersal_in_dynamic_properties allowed implied dyn) = none := by
    unfold build_fruit_type_value
    rw [hfind]
  have hpres : ∀ name, name ∉ (collect_dispersal_by_allowed_parts allowed
      (format_dispersal_in_dynamic_properties allowed implied dyn)).present := by
    intro name hmem
    obtain ⟨kv, hkv, hc⟩ := (collect_present_iff _ _ _).mp hmem
    have h2 := (presContribB_parts _ _ _ hc).2
    rw [hnodisp kv hkv] at h2
    cases h2
  have habs : ∀ name, name ∉ (collect_dispersal_by_allowed_parts allowed
      (format_dispersal_in_dynamic_properties allowed implied dyn)).absent := by
    intro name hmem
    obtain ⟨kv, hkv, hc⟩ := (collect_absent_iff _ _ _).mp hmem
    have h2 := (absContribB_parts _ _ _ hc).2
    rw [hnodisp kv hkv] at h2
    cases h2
  have hbp : ∀ name, name ∉ build_present allowed implied
      (format_dispersal_in_dynamic_properties allowed implied dyn) := by
    intro name hmem
    rcases (build_present_mem _ _ _ _).mp hmem with hp | ⟨v, hv, -, -⟩
    · exact hpres name hp
    · rw [hft2] at hv
      cases hv
  simp only [build_dispersal_block, hft2]
  rw [mkTraits_eq_nil _ _ _ fun n _ => ⟨hbp n, habs n⟩]
  rfl

/-- Witness for the amended C6: a bag holding one allowed dispersal key and
no fruitType key; after the first run the second traits block is empty. -/
theorem second_aggregation_empty_without_fruit_type_witness :
    (build_dispersal_block ["fruit", "seed"] []
      (format_dispersal_in_dynamic_properties ["fruit", "seed"] []
        [("fruitDispersalTraits", PVal.str "wing")])).traits = [] :=
  second_aggregation_empty_without_fruit_type ["fruit", "seed"] []
    [("fruitDispersalTraits", PVal.str "wing")]
    (by intro v hv; simp at hv)

/-- Counterexample to C6 as stated: with `fruitType = "berry"` in the bag
(and berry implying `fleshy_reward`), the first run's output bag contains no
dispersal-traits key, yet a second aggregation run still produces a
NON-empty traits block (`fleshy_reward = 1` plus the `fruitType` entry). -/
theorem second_aggregation_counterexample :
    (∀ kv ∈ format_dispersal_in_dynamic_properties (allowed_dispersal_parts ["berry"])
        [("berry", ["fleshy_reward"])] [("fruitType", PVal.str "berry")],
      part_from_dispersal_key kv.1 = none)
    ∧ (build_dispersal_block (allowed_dispersal_parts ["berry"]) [("berry", ["fleshy_reward"])]
        (format_dispersal_in_dynamic_properties (allowed_dispersal_parts ["berry"])
          [("berry", ["fleshy_reward"])] [("fruitType", PVal.str "berry")])).traits ≠ [] := by
  decide

/-! ### Small string lemmas for the resolvers -/

theorem splitCh_eq_single (c : Char) (l : List Char) (h : c ∉ l) :
    splitCh c l = [l] := by
  induction l with
  | nil => rfl
  | cons a rest ih =>
    have hne : (a == c) = false :=
      beq_eq_false_iff_ne.mpr fun he => h (he ▸ List.mem_cons_self a rest)
    have hrest : c ∉ rest := fun hm => h (List.mem_cons_of_mem a hm)
    simp [splitCh, ih hrest, hne]

theorem joinCh_singleton (c : Char) (x : List Char) : joinCh c [x] = x := by
  simp [joinCh, List.intercalate]

theorem lookup_mem_str (l : List (String × String)) (k v : String)
    (h : l.lookup k = some v) : (k, v) ∈ l := by
  induction l with
  | nil => cases h
  | cons a rest ih =>
    rcases a with ⟨a1, a2⟩
    by_cases he : (k == a1) = true
    · have hk : k = a1 := by simpa using he
      have hv : v = a2 := by
        simp [List.lookup, he] at h
        exact h.symm
      rw [hk, hv]
      exact List.mem_cons_self _ _
    · have he' : (k == a1) = false := by
        cases hb : (k == a1)
        · rfl
        · exact absurd hb he
      simp only [List.lookup, he'] at h
      exact List.mem_cons_of_mem _ (ih h)

/-! ### C2: what each resolver does with an unresolvable keyword -/

/-- Counterexample to C2 as stated: at a span whose only dispersal term
resolves against no table, both the dispersal-structure and the
dispersal-traits resolvers still emit a record (the functions end in
`return cls.from_ent(...)` unconditionally) - the record merely carries a
null canonical value.  The claim said no record at all is emitted. -/
theorem resolver_emits_null_record_counterexample :
    dispersal_structure_match [] [] [⟨"foo", "dispersal_term"⟩] =
      some { dispersal_structure := none }
    ∧ dispersal_traits_match [] [] [] [⟨"foo", "dispersal_term"⟩] =
      some { dispersal_traits := none, matched_keyword := none } := by
  decide

theorem dispersal_structure_scan_none (replace type2 : List (String × String))
    (ts : List Token)
    (h : ∀ t ∈ ts, t.term = "dispersal_term" →
      type2.lookup t.lower = none ∧
      type2.lookup ((replace.lookup t.lower).getD t.lower) = none) :
    dispersal_structure_scan replace type2 ts = none := by
  induction ts with
  | nil => rfl
  | cons t rest ih =>
    have hrest := fun u hu => h u (List.mem_cons_of_mem t hu)
    by_cases ht : (t.term == "dispersal_term") = true
    · have hl := h t (List.mem_cons_self t rest) (by simpa using ht)
      simp [dispersal_structure_scan, ht, hl.1, hl.2, ih hrest]
    · have ht' : (t.term == "dispersal_term") = false := by
        cases hb : (t.term == "dispersal_term")
        · rfl
        · exact absurd hb ht
      simp [dispersal_structure_scan, ht', ih hrest]

/-- C2 (amended): only the fruit-type resolver drops matches, and only when
the span has no fruit-type term token (its resolution otherwise always
succeeds via the raw-keyword fallback); the dispersal-structure and the
dispersal-traits resolvers always emit a record, which carries a null
canonical value when the keyword resolves against no table. -/
theorem unresolvable_keyword_handling (mapping replace type2 : List (String × String))
    (tmapping : List (String × List String)) (ts : List Token) :
    (ts.find? (fun t => t.term == "fruit_type_term") = none →
      fruit_type_match mapping replace ts = none)
    ∧ ((∀ t ∈ ts, t.term = "dispersal_term" →
        type2.lookup t.lower = none ∧
        type2.lookup ((replace.lookup t.lower).getD t.lower) = none) →
      dispersal_structure_match replace type2 ts =
        some { dispersal_structure := none })
    ∧ (tmapping.lookup (dispersal_norm replace ts) = none →
      type2.lookup (dispersal_key ts) = none →
      type2.lookup (dispersal_norm replace ts) = none →
      dispersal_traits_match replace type2 tmapping ts =
        some { dispersal_traits := none, matched_keyword := none }) := by
  refine ⟨?_, ?_, ?_⟩
  · intro h
    unfold fruit_type_match
    rw [h]
  · intro h
    unfold dispersal_structure_match
    rw [dispersal_structure_scan_none replace type2 ts h]
  · intro h1 h2 h3
    unfold dispersal_traits_match dispersal_traits_record
    by_cases he : (dispersal_tokens ts).isEmpty = true
    · have hres : dispersal_resolve replace type2 tmapping ts = (none, none) := by
        unfold dispersal_resolve
        rw [if_pos he]
      rw [hres]
      rfl
    · have hres : dispersal_resolve replace type2 tmapping ts = (none, none) := by
        unfold dispersal_resolve
        rw [if_neg he]
        simp [pyOr, h1, h2, h3]
      rw [hres]
      rfl

/-- Witness for the amended C2 at concrete spans and empty tables. -/
theorem unresolvable_keyword_handling_witness :
    fruit_type_match [] [] [⟨"foo", "part_term"⟩] = none
    ∧ dispersal_structure_match [] [] [⟨"foo", "dispersal_term"⟩] =
        some { dispersal_structure := none }
    ∧ dispersal_traits_match [] [] [] [⟨"foo", "dispersal_term"⟩] =
        some { dispersal_traits := none, matched_keyword := none } :=
  ⟨(unresolvable_keyword_handling [] [] [] [] [⟨"foo", "part_term"⟩]).1 (by decide),
   (unresolvable_keyword_handling [] [] [] [] [⟨"foo", "dispersal_term"⟩]).2.1 (by decide),
   (unresolvable_keyword_handling [] [] [] [] [⟨"foo", "dispersal_term"⟩]).2.2
     (by decide) (by decide) (by decide)⟩

/-! ### C4: negation suffixing -/

/-- C4: when resolution succeeds, no negator means no absence suffix is ever
added; with a negator, a resolved value that does not already end in
`"_absent"` gets the suffix appended to EVERY pipe-separated element, and a
value already ending in `"_absent"` (an inherently-absent term) is returned
untouched, never double-suffixed. -/
theorem negation_suffixes_every_trait (replace type2 : List (String × String))
    (mapping : List (String × List String)) (ts : List Token) (v : String)
    (hres : (dispersal_resolve replace type2 mapping ts).1 = some v) :
    ((ts.any fun t => t.term == "dispersal_negator") = false →
      (dispersal_traits_record replace type2 mapping ts).dispersal_traits = some v)
    ∧ ((ts.any fun t => t.term == "dispersal_negator") = true →
      "_absent".data.isSuffixOf v.data = false →
      (dispersal_traits_record replace type2 mapping ts).dispersal_traits =
        some (pipeJoin ((splitCh '|' v.data).map
          (fun g => (⟨g ++ "_absent".data⟩ : String)))))
    ∧ ((ts.any fun t => t.term == "dispersal_negator") = true →
      "_absent".data.isSuffixOf v.data = true →
      (dispersal_traits_record replace type2 mapping ts).dispersal_traits = some v) := by
  have hdt : (dispersal_traits_record replace type2 mapping ts).dispersal_traits =
      apply_negation (ts.any fun t => t.term == "dispersal_negator")
        (dispersal_resolve replace type2 mapping ts).1 := rfl
  refine ⟨?_, ?_, ?_⟩
  · intro hneg
    rw [hdt, hres]
    simp [apply_negation, hneg]
  · intro hneg hsuf
    rw [hdt, hres]
    simp only [apply_negation]
    rw [if_pos (by simp [hneg, hsuf])]
    by_cases hpipe : '|' ∈ v.data
    · rw [if_pos hpipe]
      simp only [pipeJoin, List.map_map]
      rfl
    · rw [if_neg hpipe]
      rw [splitCh_eq_single '|' v.data hpipe]
      simp [pipeJoin, joinCh_singleton]
      rfl
  · intro hneg hsuf
    rw [hdt, hres]
    simp only [apply_negation]
    rw [if_neg (by simp [hsuf])]

/-- Witness for C4: `"no wing pappus"` (negator + multi-trait mapping) gets
both traits suffixed; the same span without the negator keeps the mapped
value; an inherently-absent single term under a negator is not
double-suffixed. -/
theorem negation_suffixes_every_trait_witness :
    (dispersal_resolve [] [] [("wing pappus", ["wing", "pappus"])]
      [⟨"no", "dispersal_negator"⟩, ⟨"wing", "dispersal_term"⟩,
        ⟨"pappus", "dispersal_absence"⟩]).1 = some "wing|pappus"
    ∧ (dispersal_traits_record [] [] [("wing pappus", ["wing", "pappus"])]
        [⟨"no", "dispersal_negator"⟩, ⟨"wing", "dispersal_term"⟩,
          ⟨"pappus", "dispersal_absence"⟩]).dispersal_traits =
      some (pipeJoin ((splitCh '|' ("wing|pappus" : String).data).map
        (fun g => (⟨g ++ "_absent".data⟩ : String))))
    ∧ (dispersal_traits_record [] [] [("wing pappus", ["wing", "pappus"])]
        [⟨"wing", "dispersal_term"⟩, ⟨"pappus", "dispersal_absence"⟩]).dispersal_traits =
      some "wing|pappus"
    ∧ (dispersal_traits_record [] [("wingless", "wing_absent")] []
        [⟨"no", "dispersal_negator"⟩, ⟨"wingless", "dispersal_absence"⟩]).dispersal_traits =
      some "wing_absent" := by
  refine ⟨by decide, ?_, ?_, ?_⟩
  · exact (negation_suffixes_every_trait [] [] [("wing pappus", ["wing", "pappus"])]
      [⟨"no", "dispersal_negator"⟩, ⟨"wing", "dispersal_term"⟩,
        ⟨"pappus", "dispersal_absence"⟩] "wing|pappus" (by decide)).2.1 (by decide) (by decide)
  · exact (negation_suffixes_every_trait [] [] [("wing pappus", ["wing", "pappus"])]
      [⟨"wing", "dispersal_term"⟩, ⟨"pappus", "dispersal_absence"⟩] "wing|pappus"
      (by decide)).1 (by decide)
  · exact (negation_suffixes_every_trait [] [("wingless", "wing_absent")] []
      [⟨"no", "dispersal_negator"⟩, ⟨"wingless", "dispersal_absence"⟩] "wing_absent"
      (by decide)).2.2 (by decide) (by decide)

/-! ### C7: composite key and mapping precedence -/

/-- C7: the lookup key is the stripped space-join of the in-order lowercase
dispersal-term/absence tokens (`dispersal_key`); when the replace-normalized
key is in the keyword-to-trait-list mapping, the record keeps that key as
provenance, the resolved value is the pipe-joined mapped trait list (exactly,
when no negator is present), and the term-table `type` column is never
consulted: the record does not depend on the type table at all. -/
theorem mapping_wins_over_type_table (replace type2 type2b : List (String × String))
    (mapping : List (String × List String)) (ts : List Token) (tl : List String)
    (hne : (dispersal_tokens ts).isEmpty = false)
    (hmap : mapping.lookup (dispersal_norm replace ts) = some tl) :
    (dispersal_traits_record replace type2 mapping ts).matched_keyword =
      some (dispersal_key ts)
    ∧ ((ts.any fun t => t.term == "dispersal_negator") = false →
      (dispersal_traits_record replace type2 mapping ts).dispersal_traits =
        some (pipeJoin tl))
    ∧ dispersal_traits_record replace type2 mapping ts =
        dispersal_traits_record replace type2b mapping ts := by
  have hres : dispersal_resolve replace type2 mapping ts =
      (some (pipeJoin tl), some (dispersal_key ts)) := by
    unfold dispersal_resolve
    rw [if_neg (by simp [hne])]
    simp [hmap]
  have hresb : dispersal_resolve replace type2b mapping ts =
      (some (pipeJoin tl), some (dispersal_key ts)) := by
    unfold dispersal_resolve
    rw [if_neg (by simp [hne])]
    simp [hmap]
  refine ⟨?_, ?_, ?_⟩
  · have hmk : (dispersal_traits_record replace type2 mapping ts).matched_keyword =
        (dispersal_resolve replace type2 mapping ts).2 := rfl
    rw [hmk, hres]
  · intro hneg
    have hdt : (dispersal_traits_record replace type2 mapping ts).dispersal_traits =
        apply_negation (ts.any fun t => t.term == "dispersal_negator")
          (dispersal_resolve replace type2 mapping ts).1 := rfl
    rw [hdt, hres]
    simp [apply_negation, hneg]
  · simp only [dispersal_traits_record, hres, hresb]

/-- Witness for C7: `"wing pappus"` is in the mapping, so the record carries
the composite key and the pipe-joined mapped trait list, independent of two
different type tables. -/
theorem mapping_wins_over_type_table_witness :
    (dispersal_traits_record [] [("wing pappus", "spurious")]
      [("wing pappus", ["wing", "pappus"])]
      [⟨"wing", "dispersal_term"⟩, ⟨"pappus", "dispersal_absence"⟩]).matched_keyword =
      some (dispersal_key [⟨"wing", "dispersal_term"⟩, ⟨"pappus", "dispersal_absence"⟩])
    ∧ (dispersal_traits_record [] [("wing pappus", "spurious")]
        [("wing pappus", ["wing", "pappus"])]
        [⟨"wing", "dispersal_term"⟩, ⟨"pappus", "dispersal_absence"⟩]).dispersal_traits =
      some (pipeJoin ["wing", "pappus"])
    ∧ dispersal_traits_record [] [("wing pappus", "spurious")]
        [("wing pappus", ["wing", "pappus"])]
        [⟨"wing", "dispersal_term"⟩, ⟨"pappus", "dispersal_absence"⟩] =
      dispersal_traits_record [] []
        [("wing pappus", ["wing", "pappus"])]
        [⟨"wing", "dispersal_term"⟩, ⟨"pappus", "dispersal_absence"⟩] := by
  have h := mapping_wins_over_type_table [] [("wing pappus", "spurious")] []
    [("wing pappus", ["wing", "pappus"])]
    [⟨"wing", "dispersal_term"⟩, ⟨"pappus", "dispersal_absence"⟩]
    ["wing", "pappus"] (by decide) (by decide)
  exact ⟨h.1, h.2.1 (by decide), h.2.2⟩

/-! ### C8: fruit-type resolution precedence -/

/-- C8: a span with no fruit-type term token yields no record; otherwise the
canonical part is resolved with precedence mapping-table value, then the
replace-table value, then the raw lowercase keyword (the mapping table is
well-formed: its values are non-empty, as its loader guarantees). -/
theorem fruit_type_resolution_precedence (mapping replace : List (String × String))
    (ts : List Token) (hwf : ∀ kv ∈ mapping, kv.2 ≠ "") :
    (ts.find? (fun t => t.term == "fruit_type_term") = none →
      fruit_type_match mapping replace ts = none)
    ∧ (∀ tok, ts.find? (fun t => t.term == "fruit_type_term") = some tok →
      fruit_type_match mapping replace ts =
        some { part := fruit_type_canonical_spec mapping replace tok.lower,
               matched_keyword := tok.lower }) := by
  constructor
  · intro h
    unfold fruit_type_match
    rw [h]
  · intro tok h
    unfold fruit_type_match fruit_type_canonical_spec
    rw [h]
    match hm : mapping.lookup tok.lower with
    | some v =>
      have hv : v ≠ "" := hwf (tok.lower, v) (lookup_mem_str _ _ _ hm)
      simp [pyOrS, hm, hv]
    | none => simp [pyOrS, hm]

/-- Witness for C8: mapping hit (`pepo` to `berry`), replace-table fallback
(`pepos` to `pepo`), raw-keyword fallback, and the no-token rejection. -/
theorem fruit_type_resolution_precedence_witness :
    fruit_type_match [("pepo", "berry")] [("pepos", "pepo")] [⟨"fruits", "part_term"⟩] = none
    ∧ fruit_type_match [("pepo", "berry")] [("pepos", "pepo")]
        [⟨"pepo", "fruit_type_term"⟩] = some { part := "berry", matched_keyword := "pepo" }
    ∧ fruit_type_match [("pepo", "berry")] [("pepos", "pepo")]
        [⟨"pepos", "fruit_type_term"⟩] = some { part := "pepo", matched_keyword := "pepos" }
    ∧ fruit_type_match [("pepo", "berry")] [("pepos", "pepo")]
        [⟨"weird", "fruit_type_term"⟩] = some { part := "weird", matched_keyword := "weird" } := by
  have hwf : ∀ kv ∈ [(("pepo" : String), ("berry" : String))], kv.2 ≠ "" := by decide
  refine ⟨(fruit_type_resolution_precedence _ _ _ hwf).1 (by decide), ?_, ?_, ?_⟩
  · rw [(fruit_type_resolution_precedence [("pepo", "berry")] [("pepos", "pepo")] _ hwf).2
      ⟨"pepo", "fruit_type_term"⟩ (by decide)]
    decide
  · rw [(fruit_type_resolution_precedence [("pepo", "berry")] [("pepos", "pepo")] _ hwf).2
      ⟨"pepos", "fruit_type_term"⟩ (by decide)]
    decide
  · rw [(fruit_type_resolution_precedence [("pepo", "berry")] [("pepos", "pepo")] _ hwf).2
      ⟨"weird", "fruit_type_term"⟩ (by decide)]
    decide

/-! ### C10: block construction before bag mutation -/

/-- C10: block construction is embedded as a pure function of the bag - the
source reads `dyn` but never assigns into or pops from it - and the JSON
writer computes the block from the pre-mutation bag, mutating only
afterwards (`write_json_dispersal`).  The ordering matters: building the
block from the mutated bag would generally give a different block, as the
final conjunct shows on a concrete bag. -/
theorem writer_builds_block_before_mutation (allowed : List String)
    (implied : List (String × List String)) (dyn : Bag) :
    (write_json_dispersal allowed implied dyn).1 = build_dispersal_block allowed implied dyn
    ∧ (write_json_dispersal allowed implied dyn).2 =
        format_dispersal_in_dynamic_properties allowed implied dyn
    ∧ build_dispersal_block (allowed_dispersal_parts []) []
        (format_dispersal_in_dynamic_properties (allowed_dispersal_parts []) []
          [("fruitDispersalTraits", PVal.str "wing")]) ≠
      build_dispersal_block (allowed_dispersal_parts []) []
        [("fruitDispersalTraits", PVal.str "wing")] :=
  ⟨rfl, rfl, by decide⟩
